import Mathlib

/-!
Shallow embedding of the `refined_sets` wasm crate's two container
primitives, translated from `src/index_ring.rs` and `src/hole_array.rs`.

`IndexRing` is a growable circular buffer storing 24-bit unsigned values
packed as 3 little-endian bytes per slot in a flat byte vector.  Bytes are
modelled as `Nat` (with the representation invariant `Good` recording that
each byte is `< 256`, which the Rust `u8` type enforces by construction),
and the byte vector as `List Nat`.  `HoleArray` is a tombstone array,
modelled as a `List (Option α)`.
-/

namespace RefinedSets

/-- Decode of one 3-byte slot: `byte0 | byte1<<8 | byte2<<16`, as in
`IndexRing::get` / `shift` / `pop`. -/
def decode3 (b0 b1 b2 : Nat) : Nat := b0 ||| (b1 <<< 8) ||| (b2 <<< 16)

/-- The `j`-th byte of the 3-byte little-endian encoding of `v`:
`[v & 0xFF, (v>>8) & 0xFF, (v>>16) & 0xFF]`, as in `IndexRing::push`. -/
def encByte (v : Nat) : Nat → Nat
  | 0 => v &&& 0xFF
  | 1 => (v >>> 8) &&& 0xFF
  | _ => (v >>> 16) &&& 0xFF

/-- Read the byte at index `i` of a byte buffer (in-bounds in all reachable
uses; the default is irrelevant there). -/
def byteAt (data : List Nat) (i : Nat) : Nat := data.getD i 0

/-- Decode the slot whose first byte sits at offset `off`. -/
def readSlot (data : List Nat) (off : Nat) : Nat :=
  decode3 (byteAt data off) (byteAt data (off + 1)) (byteAt data (off + 2))

/-- Write the 3-byte encoding of `value` at byte offset `off`. -/
def writeSlot (data : List Nat) (off : Nat) (value : Nat) : List Nat :=
  ((data.set off (encByte value 0)).set (off + 1) (encByte value 1)).set
    (off + 2) (encByte value 2)

/-- The state of `IndexRing`: byte vector `data`, slot index `head` of the
oldest element, and logical length `len`. -/
@[ext]
structure IndexRing where
  data : List Nat
  head : Nat
  len : Nat
deriving DecidableEq, Repr

namespace IndexRing

/-- `IndexRing::new(slots)`: `slots * 3` zero bytes, `head = 0`, `len = 0`. -/
def new (slots : Nat) : IndexRing :=
  ⟨List.replicate (slots * 3) 0, 0, 0⟩

/-- `IndexRing::capacity_in_slots`: `data.len() / 3`. -/
def capacityInSlots (r : IndexRing) : Nat := r.data.length / 3

/-- `IndexRing::slot_to_byte`: `(slot_idx % capacity) * 3`. -/
def slotToByte (r : IndexRing) (slotIdx : Nat) : Nat :=
  (slotIdx % r.capacityInSlots) * 3

/-- `IndexRing::get(index)`: decode the slot `(head + index) % capacity`
(the source asserts `index < len`; the claims carry that precondition). -/
def get (r : IndexRing) (index : Nat) : Nat :=
  readSlot r.data (((r.head + index) % r.capacityInSlots) * 3)

/-- The copy loop shared by the grow branch of `push` and by `compact`:
`for i in 0..bound { write get(i) at byte offset i*3 of dst }`, reading from
the old ring `r` and writing into the fresh buffer. -/
def copyAll (r : IndexRing) (dst : List Nat) : Nat → List Nat
  | 0 => dst
  | i + 1 => writeSlot (copyAll r dst i) (i * 3) (r.get i)

/-- The grow branch of `IndexRing::push`: new capacity
`max(capacity, 1) * 2` slots, existing elements rewritten in logical order
starting at slot 0, `head` reset to 0. -/
def grow (r : IndexRing) : IndexRing :=
  ⟨copyAll r (List.replicate ((max r.capacityInSlots 1 * 2) * 3) 0) r.len,
   0, r.len⟩

/-- The unconditional tail of `IndexRing::push`: write `value` at slot
`(head + len) % capacity` and increment `len`. -/
def pushTail (r : IndexRing) (value : Nat) : IndexRing :=
  ⟨writeSlot r.data (r.slotToByte ((r.head + r.len) % r.capacityInSlots)) value,
   r.head, r.len + 1⟩

/-- `IndexRing::push(value)`: grow when full (`len == capacity`), then
append.  The source asserts `value <= 0xFFFFFF`; the claims carry that
precondition. -/
def push (r : IndexRing) (value : Nat) : IndexRing :=
  pushTail (if r.len = r.capacityInSlots then r.grow else r) value

/-- `IndexRing::shift()`: remove and return the oldest element; `None` and
no state change when empty. -/
def shift (r : IndexRing) : Option Nat × IndexRing :=
  if r.len = 0 then (none, r)
  else
    (some (readSlot r.data (r.slotToByte r.head)),
     ⟨r.data, (r.head + 1) % r.capacityInSlots, r.len - 1⟩)

/-- `IndexRing::pop()`: textually identical body to `shift` in the source. -/
def pop (r : IndexRing) : Option Nat × IndexRing :=
  if r.len = 0 then (none, r)
  else
    (some (readSlot r.data (r.slotToByte r.head)),
     ⟨r.data, (r.head + 1) % r.capacityInSlots, r.len - 1⟩)

/-- `IndexRing::to_array()`: `get(0), …, get(len-1)`. -/
def toArray (r : IndexRing) : List Nat :=
  (List.range r.len).map r.get

/-- `IndexRing::compact()`: reallocate to exactly `len` slots, copy the
logical elements into physical order, reset `head` to 0. -/
def compact (r : IndexRing) : IndexRing :=
  ⟨copyAll r (List.replicate (r.len * 3) 0) r.len, 0, r.len⟩

/-- Representation invariant of every Rust-reachable `IndexRing` state:
the byte vector length is a multiple of 3 (it is always built as
`slots * 3`), every byte fits in `u8`, and `len ≤ capacity`. -/
def Good (r : IndexRing) : Prop :=
  r.data.length = r.capacityInSlots * 3 ∧ (∀ b ∈ r.data, b < 256) ∧
    r.len ≤ r.capacityInSlots

instance : DecidablePred Good := fun r => by
  unfold Good; infer_instance

end IndexRing

/-- One public mutating operation of `IndexRing`. -/
inductive RingOp where
  | push (value : Nat)
  | pop
  | shift
  | compact
deriving DecidableEq, Repr

/-- Run one operation on the ring, keeping the successor state. -/
def applyOp (r : IndexRing) : RingOp → IndexRing
  | .push v => r.push v
  | .pop => r.pop.2
  | .shift => r.shift.2
  | .compact => r.compact

/-- Run a sequence of operations from left to right. -/
def applyOps (r : IndexRing) : List RingOp → IndexRing
  | [] => r
  | op :: ops => applyOps (applyOp r op) ops

/-- The `push` precondition of the source (`assert!(value <= 0xFFFFFF)`). -/
def opOK : RingOp → Bool
  | .push v => v ≤ 0xFFFFFF
  | _ => true

/-- Reference FIFO model of one operation on the logical contents. -/
def modelOp (l : List Nat) : RingOp → List Nat
  | .push v => l ++ [v]
  | .pop => l.tail
  | .shift => l.tail
  | .compact => l

/-- Reference FIFO model of an operation sequence. -/
def modelOps (l : List Nat) : List RingOp → List Nat
  | [] => l
  | op :: ops => modelOps (modelOp l op) ops

/-- `HoleArray<T>` from `src/hole_array.rs`: a growable sequence of slots,
each either occupied (`some`) or a hole (`none`). -/
structure HoleArray (α : Type) where
  data : List (Option α)
deriving DecidableEq, Repr

namespace HoleArray

variable {α : Type}

/-- `HoleArray::new()`: empty sequence. -/
def new : HoleArray α := ⟨[]⟩

/-- `HoleArray::push(value)`: append an occupied slot. -/
def push (h : HoleArray α) (value : α) : HoleArray α :=
  ⟨h.data ++ [some value]⟩

/-- `HoleArray::mark_hole(index)`: set the slot to a hole when in range,
silently do nothing otherwise (`data.get_mut(index)` returns `None` out of
range; `List.set` is likewise a no-op out of range). -/
def markHole (h : HoleArray α) (index : Nat) : HoleArray α :=
  ⟨h.data.set index none⟩

/-- `HoleArray::compact()`: `retain(|x| x.is_some())`. -/
def compact (h : HoleArray α) : HoleArray α :=
  ⟨h.data.filter (fun x => x.isSome)⟩

/-- `HoleArray::iter_valid()`: the occupied values in current order. -/
def iterValid (h : HoleArray α) : List α :=
  h.data.filterMap id

/-- A sequence of pushes. -/
def pushAll (h : HoleArray α) (vs : List α) : HoleArray α :=
  vs.foldl push h

/-- A sequence of `markHole` calls (any order, repeats allowed). -/
def markHoles (h : HoleArray α) (hs : List Nat) : HoleArray α :=
  hs.foldl markHole h

end HoleArray

/-! ### Bit-level lemmas about the 3-byte encoding -/

theorem lor_shiftLeft_eq_add {a b : Nat} (n : Nat) (h : a < 2 ^ n) :
    a ||| (b <<< n) = a + b * 2 ^ n := by
  apply Nat.eq_of_testBit_eq
  intro i
  have h2 : a + b * 2 ^ n = 2 ^ n * b + a := by ring
  rw [h2, Nat.testBit_mul_pow_two_add _ h, Nat.testBit_lor, Nat.testBit_shiftLeft]
  by_cases hi : i < n
  · simp [hi, Nat.not_le.mpr hi]
  · simp only [hi, if_false]
    have ha : a.testBit i = false := by
      apply Nat.testBit_lt_two_pow
      calc a < 2 ^ n := h
        _ ≤ 2 ^ i := Nat.pow_le_pow_right (by norm_num) (Nat.not_lt.mp hi)
    simp [ha, Nat.not_lt.mp hi]

theorem and_255_eq_mod (x : Nat) : x &&& 0xFF = x % 256 := by
  have h := Nat.and_pow_two_sub_one_eq_mod x 8
  norm_num at h ⊢
  omega

theorem decode3_eq_add (b0 b1 b2 : Nat) (h0 : b0 < 256) (h1 : b1 < 256) :
    decode3 b0 b1 b2 = b0 + b1 * 256 + b2 * 65536 := by
  unfold decode3
  rw [lor_shiftLeft_eq_add 8 (by omega)]
  rw [lor_shiftLeft_eq_add 16 (by norm_num; omega)]
  norm_num

theorem encByte_lt (v : Nat) (j : Nat) : encByte v j < 256 := by
  have h0 : v &&& 0xFF ≤ 0xFF := Nat.and_le_right
  have h1 : (v >>> 8) &&& 0xFF ≤ 0xFF := Nat.and_le_right
  have h2 : (v >>> 16) &&& 0xFF ≤ 0xFF := Nat.and_le_right
  match j with
  | 0 => simpa [encByte] using Nat.lt_succ_of_le h0
  | 1 => simpa [encByte] using Nat.lt_succ_of_le h1
  | j + 2 => simpa [encByte] using Nat.lt_succ_of_le h2

theorem decode3_encByte (v : Nat) (hv : v ≤ 0xFFFFFF) :
    decode3 (encByte v 0) (encByte v 1) (encByte v 2) = v := by
  rw [decode3_eq_add _ _ _ (encByte_lt v 0) (encByte_lt v 1)]
  simp only [encByte]
  rw [and_255_eq_mod, and_255_eq_mod, and_255_eq_mod,
    Nat.shiftRight_eq_div_pow, Nat.shiftRight_eq_div_pow]
  norm_num at hv ⊢
  omega

theorem decode3_le (b0 b1 b2 : Nat) (h0 : b0 < 256) (h1 : b1 < 256)
    (h2 : b2 < 256) : decode3 b0 b1 b2 ≤ 0xFFFFFF := by
  rw [decode3_eq_add _ _ _ h0 h1]
  omega

/-! ### Byte-buffer lemmas -/

theorem byteAt_lt {data : List Nat} (hb : ∀ b ∈ data, b < 256) (k : Nat) :
    byteAt data k < 256 := by
  unfold byteAt
  rw [List.getD_eq_getElem?_getD]
  cases h : data[k]? with
  | none => simp
  | some b =>
    have hm : b ∈ data := List.getElem?_mem h
    simpa using hb b hm

theorem readSlot_le {data : List Nat} (hb : ∀ b ∈ data, b < 256) (off : Nat) :
    readSlot data off ≤ 0xFFFFFF :=
  decode3_le _ _ _ (byteAt_lt hb off) (byteAt_lt hb (off + 1))
    (byteAt_lt hb (off + 2))

theorem writeSlot_length (data : List Nat) (off v : Nat) :
    (writeSlot data off v).length = data.length := by
  simp [writeSlot]

theorem mem_writeSlot {data : List Nat} {off v b : Nat}
    (h : b ∈ writeSlot data off v) : b ∈ data ∨ b < 256 := by
  unfold writeSlot at h
  rcases List.mem_or_eq_of_mem_set h with h | h
  · rcases List.mem_or_eq_of_mem_set h with h | h
    · rcases List.mem_or_eq_of_mem_set h with h | h
      · exact Or.inl h
      · exact Or.inr (h ▸ encByte_lt v 0)
    · exact Or.inr (h ▸ encByte_lt v 1)
  · exact Or.inr (h ▸ encByte_lt v 2)

theorem byteAt_writeSlot_of_ne {data : List Nat} {off k : Nat} (v : Nat)
    (h0 : k ≠ off) (h1 : k ≠ off + 1) (h2 : k ≠ off + 2) :
    byteAt (writeSlot data off v) k = byteAt data k := by
  unfold byteAt writeSlot
  rw [List.getD_eq_getElem?_getD, List.getD_eq_getElem?_getD,
    List.getElem?_set_ne (Ne.symm h2), List.getElem?_set_ne (Ne.symm h1),
    List.getElem?_set_ne (Ne.symm h0)]

theorem byteAt_writeSlot_b0 {data : List Nat} {off : Nat} (v : Nat)
    (hoff : off + 2 < data.length) :
    byteAt (writeSlot data off v) off = encByte v 0 := by
  unfold byteAt writeSlot
  rw [List.getD_eq_getElem?_getD,
    List.getElem?_set_ne (by omega : off + 2 ≠ off),
    List.getElem?_set_ne (by omega : off + 1 ≠ off),
    List.getElem?_set_self (by omega : off < data.length)]
  simp

theorem byteAt_writeSlot_b1 {data : List Nat} {off : Nat} (v : Nat)
    (hoff : off + 2 < data.length) :
    byteAt (writeSlot data off v) (off + 1) = encByte v 1 := by
  unfold byteAt writeSlot
  rw [List.getD_eq_getElem?_getD,
    List.getElem?_set_ne (by omega : off + 2 ≠ off + 1),
    List.getElem?_set_self
      (by simp only [List.length_set]; omega :
        off + 1 < (data.set off (encByte v 0)).length)]
  simp

theorem byteAt_writeSlot_b2 {data : List Nat} {off : Nat} (v : Nat)
    (hoff : off + 2 < data.length) :
    byteAt (writeSlot data off v) (off + 2) = encByte v 2 := by
  unfold byteAt writeSlot
  rw [List.getD_eq_getElem?_getD,
    List.getElem?_set_self
      (by simp only [List.length_set]; omega :
        off + 2 < ((data.set off (encByte v 0)).set (off + 1)
          (encByte v 1)).length)]
  simp

theorem readSlot_writeSlot_self {data : List Nat} {off v : Nat}
    (hoff : off + 2 < data.length) (hv : v ≤ 0xFFFFFF) :
    readSlot (writeSlot data off v) off = v := by
  unfold readSlot
  rw [byteAt_writeSlot_b0 v hoff, byteAt_writeSlot_b1 v hoff,
    byteAt_writeSlot_b2 v hoff]
  exact decode3_encByte v hv

theorem readSlot_writeSlot_of_ne {data : List Nat} {s t v : Nat}
    (hst : s ≠ t) :
    readSlot (writeSlot data (t * 3) v) (s * 3) = readSlot data (s * 3) := by
  unfold readSlot
  rw [byteAt_writeSlot_of_ne v (by omega) (by omega) (by omega),
    byteAt_writeSlot_of_ne v (by omega) (by omega) (by omega),
    byteAt_writeSlot_of_ne v (by omega) (by omega) (by omega)]

/-! ### The copy loop of `grow` and `compact` -/

namespace IndexRing

theorem copyAll_length (r : IndexRing) (dst : List Nat) (i : Nat) :
    (copyAll r dst i).length = dst.length := by
  induction i with
  | zero => rfl
  | succ i ih => rw [copyAll, writeSlot_length, ih]

theorem mem_copyAll {r : IndexRing} {dst : List Nat} {i b : Nat}
    (h : b ∈ copyAll r dst i) : b ∈ dst ∨ b < 256 := by
  induction i with
  | zero => exact Or.inl h
  | succ i ih =>
    rw [copyAll] at h
    rcases mem_writeSlot h with h | h
    · exact ih h
    · exact Or.inr h

theorem byteAt_copyAll (r : IndexRing) (dst : List Nat) (i : Nat)
    (hlen : i * 3 ≤ dst.length) (k : Nat) :
    byteAt (copyAll r dst i) k =
      if k < i * 3 then encByte (r.get (k / 3)) (k % 3) else byteAt dst k := by
  induction i with
  | zero => simp [copyAll]
  | succ i ih =>
    have hlen' : i * 3 ≤ dst.length := by omega
    have hL : (copyAll r dst i).length = dst.length := copyAll_length r dst i
    rw [copyAll]
    by_cases hk3 : k < i * 3
    · rw [byteAt_writeSlot_of_ne _ (by omega) (by omega) (by omega), ih hlen']
      simp [hk3, show k < (i + 1) * 3 by omega]
    · by_cases hk : k < (i + 1) * 3
      · have hbound : i * 3 + 2 < (copyAll r dst i).length := by omega
        have hcase : k = i * 3 ∨ k = i * 3 + 1 ∨ k = i * 3 + 2 := by omega
        have hdiv : k / 3 = i := by omega
        rcases hcase with hc | hc | hc
        · have hmod : k % 3 = 0 := by omega
          rw [hc, byteAt_writeSlot_b0 _ hbound]
          rw [← hc]
          simp [hk, hdiv, hmod]
        · have hmod : k % 3 = 1 := by omega
          rw [hc, byteAt_writeSlot_b1 _ hbound]
          rw [← hc]
          simp [hk, hdiv, hmod]
        · have hmod : k % 3 = 2 := by omega
          rw [hc, byteAt_writeSlot_b2 _ hbound]
          rw [← hc]
          simp [hk, hdiv, hmod]
      · rw [byteAt_writeSlot_of_ne _ (by omega) (by omega) (by omega), ih hlen']
        simp [hk, hk3]

theorem get_le {r : IndexRing} (hb : ∀ b ∈ r.data, b < 256) (i : Nat) :
    r.get i ≤ 0xFFFFFF :=
  readSlot_le hb _

/-- Reading slot `i` back out of a fresh `m`-slot buffer filled by the copy
loop returns the `i`-th logical element of the old ring. -/
theorem readSlot_copyAll {r : IndexRing} (hb : ∀ b ∈ r.data, b < 256)
    {m : Nat} (hm : r.len ≤ m) {i : Nat} (hi : i < r.len) :
    readSlot (copyAll r (List.replicate (m * 3) 0) r.len) (i * 3) = r.get i := by
  have hlen : r.len * 3 ≤ (List.replicate (m * 3) 0).length := by
    simp [List.length_replicate]; omega
  unfold readSlot
  rw [byteAt_copyAll r _ r.len hlen, byteAt_copyAll r _ r.len hlen,
    byteAt_copyAll r _ r.len hlen]
  have h0 : i * 3 < r.len * 3 := by omega
  have h1 : i * 3 + 1 < r.len * 3 := by omega
  have h2 : i * 3 + 2 < r.len * 3 := by omega
  have d0 : i * 3 / 3 = i := by omega
  have d1 : (i * 3 + 1) / 3 = i := by omega
  have d2 : (i * 3 + 2) / 3 = i := by omega
  have m0 : i * 3 % 3 = 0 := by omega
  have m1 : (i * 3 + 1) % 3 = 1 := by omega
  have m2 : (i * 3 + 2) % 3 = 2 := by omega
  rw [if_pos h0, if_pos h1, if_pos h2, d0, d1, d2, m0, m1, m2]
  exact decode3_encByte _ (get_le hb i)

theorem byteAt_eq_getElem {l : List Nat} {k : Nat} (h : k < l.length) :
    byteAt l k = l[k] := by
  simp [byteAt, List.getD_eq_getElem?_getD, List.getElem?_eq_getElem h]

/-! ### `new`, `grow` and `compact` -/

theorem good_new (n : Nat) : Good (new n) := by
  refine ⟨?_, ?_, ?_⟩
  · simp [new, capacityInSlots, List.length_replicate, Nat.mul_div_cancel]
  · intro b hb
    rw [List.eq_of_mem_replicate hb]
    norm_num
  · simp [new]

theorem toArray_new (n : Nat) : toArray (new n) = [] := by
  simp [toArray, new]

theorem grow_len (r : IndexRing) : (r.grow).len = r.len := rfl

theorem grow_head (r : IndexRing) : (r.grow).head = 0 := rfl

theorem grow_capacity (r : IndexRing) :
    (r.grow).capacityInSlots = max r.capacityInSlots 1 * 2 := by
  simp [grow, capacityInSlots, copyAll_length, List.length_replicate,
    Nat.mul_div_cancel]

theorem lt_grow_capacity {r : IndexRing} (h : r.len ≤ r.capacityInSlots) :
    r.len < (r.grow).capacityInSlots := by
  rw [grow_capacity]
  have h1 : r.capacityInSlots ≤ max r.capacityInSlots 1 := le_max_left _ _
  have h2 : 1 ≤ max r.capacityInSlots 1 := le_max_right _ _
  omega

theorem good_grow {r : IndexRing} (hg : Good r) : Good r.grow := by
  obtain ⟨hlen, hb, hlc⟩ := hg
  refine ⟨?_, ?_, ?_⟩
  · simp [grow, capacityInSlots, copyAll_length, List.length_replicate,
      Nat.mul_div_cancel]
  · intro b hbm
    rcases mem_copyAll hbm with hbm | hbm
    · rw [List.eq_of_mem_replicate hbm]; norm_num
    · exact hbm
  · rw [grow_len]
    exact le_of_lt (lt_grow_capacity hlc)

theorem get_grow {r : IndexRing} (hg : Good r) {i : Nat} (hi : i < r.len) :
    (r.grow).get i = r.get i := by
  obtain ⟨hlen, hb, hlc⟩ := hg
  have hcap := grow_capacity r
  have hlt : r.len < (r.grow).capacityInSlots := lt_grow_capacity hlc
  show readSlot (r.grow).data (((0 + i) % (r.grow).capacityInSlots) * 3) = _
  rw [Nat.zero_add, Nat.mod_eq_of_lt (lt_of_lt_of_le hi (le_of_lt hlt))]
  rw [hcap] at hlt
  show readSlot (copyAll r _ r.len) (i * 3) = r.get i
  exact readSlot_copyAll hb (by omega) hi

theorem toArray_grow {r : IndexRing} (hg : Good r) :
    toArray r.grow = toArray r := by
  unfold toArray
  rw [grow_len]
  apply List.map_congr_left
  intro i hi
  exact get_grow hg (List.mem_range.mp hi)

theorem compact_len (r : IndexRing) : (r.compact).len = r.len := rfl

theorem compact_head (r : IndexRing) : (r.compact).head = 0 := rfl

theorem compact_data_length (r : IndexRing) :
    (r.compact).data.length = r.len * 3 := by
  simp [compact, copyAll_length, List.length_replicate]

theorem compact_capacity (r : IndexRing) :
    (r.compact).capacityInSlots = r.len := by
  simp [capacityInSlots, compact_data_length, Nat.mul_div_cancel]

theorem good_compact {r : IndexRing} (hg : Good r) : Good r.compact := by
  obtain ⟨hlen, hb, hlc⟩ := hg
  refine ⟨?_, ?_, ?_⟩
  · rw [compact_data_length, compact_capacity]
  · intro b hbm
    rcases mem_copyAll hbm with hbm | hbm
    · rw [List.eq_of_mem_replicate hbm]; norm_num
    · exact hbm
  · rw [compact_len, compact_capacity]

theorem get_compact {r : IndexRing} (hg : Good r) {i : Nat} (hi : i < r.len) :
    (r.compact).get i = r.get i := by
  obtain ⟨hlen, hb, hlc⟩ := hg
  have hcap := compact_capacity r
  show readSlot (r.compact).data (((0 + i) % (r.compact).capacityInSlots) * 3) = _
  rw [Nat.zero_add, hcap, Nat.mod_eq_of_lt hi]
  show readSlot (copyAll r _ r.len) (i * 3) = r.get i
  exact readSlot_copyAll hb (le_refl _) hi

theorem toArray_compact {r : IndexRing} (hg : Good r) :
    toArray r.compact = toArray r := by
  unfold toArray
  rw [compact_len]
  apply List.map_congr_left
  intro i hi
  exact get_compact hg (List.mem_range.mp hi)

theorem compact_idem {r : IndexRing} (hg : Good r) :
    r.compact.compact = r.compact := by
  have hgc := good_compact hg
  have hlen2 : (r.compact.compact).data.length = (r.compact).data.length := by
    rw [compact_data_length, compact_data_length, compact_len]
  refine IndexRing.ext ?_ rfl rfl
  apply List.ext_getElem hlen2
  intro k h1 h2
  have hk : k < r.len * 3 := by rw [compact_data_length, compact_len] at h1; omega
  have hdiv : k / 3 < r.len := by omega
  have hdst : r.len * 3 ≤ (List.replicate (r.len * 3) (0 : Nat)).length := by
    simp [List.length_replicate]
  rw [← byteAt_eq_getElem h1, ← byteAt_eq_getElem h2]
  show byteAt (copyAll r.compact (List.replicate ((r.compact).len * 3) 0)
    (r.compact).len) k = byteAt (copyAll r (List.replicate (r.len * 3) 0) r.len) k
  rw [compact_len]
  rw [byteAt_copyAll r.compact _ r.len hdst k, byteAt_copyAll r _ r.len hdst k]
  rw [if_pos hk, if_pos hk, get_compact hg hdiv]

/-! ### `push` (append path) and `shift`/`pop` -/

theorem pushTail_capacity (r : IndexRing) (v : Nat) :
    (pushTail r v).capacityInSlots = r.capacityInSlots := by
  simp [pushTail, capacityInSlots, writeSlot_length]

theorem pushTail_len (r : IndexRing) (v : Nat) :
    (pushTail r v).len = r.len + 1 := rfl

theorem pushTail_head (r : IndexRing) (v : Nat) :
    (pushTail r v).head = r.head := rfl

theorem tailSlot_mod {r : IndexRing} (h : 0 < r.capacityInSlots) :
    ((r.head + r.len) % r.capacityInSlots) % r.capacityInSlots
      = (r.head + r.len) % r.capacityInSlots :=
  Nat.mod_eq_of_lt (Nat.mod_lt _ h)

theorem get_pushTail_old {r : IndexRing} (hg : Good r)
    (hlt : r.len < r.capacityInSlots) (v : Nat) {i : Nat} (hi : i < r.len) :
    (pushTail r v).get i = r.get i := by
  obtain ⟨hlen, hb, hlc⟩ := hg
  have hcap0 : 0 < r.capacityInSlots := by omega
  show readSlot (pushTail r v).data
    (((r.head + i) % (pushTail r v).capacityInSlots) * 3) = _
  rw [pushTail_capacity]
  show readSlot (writeSlot r.data (r.slotToByte _) v)
    (((r.head + i) % r.capacityInSlots) * 3) = _
  unfold slotToByte
  rw [tailSlot_mod hcap0]
  have hne : (r.head + i) % r.capacityInSlots
      ≠ (r.head + r.len) % r.capacityInSlots := by
    intro heq
    have hmodeq : i ≡ r.len [MOD r.capacityInSlots] :=
      (Nat.ModEq.add_left_cancel' r.head heq)
    have : i % r.capacityInSlots = r.len % r.capacityInSlots := hmodeq
    rw [Nat.mod_eq_of_lt (by omega), Nat.mod_eq_of_lt hlt] at this
    omega
  exact readSlot_writeSlot_of_ne hne

theorem get_pushTail_new {r : IndexRing} (hg : Good r)
    (hlt : r.len < r.capacityInSlots) {v : Nat} (hv : v ≤ 0xFFFFFF) :
    (pushTail r v).get r.len = v := by
  obtain ⟨hlen, hb, hlc⟩ := hg
  have hcap0 : 0 < r.capacityInSlots := by omega
  show readSlot (pushTail r v).data
    (((r.head + r.len) % (pushTail r v).capacityInSlots) * 3) = _
  rw [pushTail_capacity]
  show readSlot (writeSlot r.data (r.slotToByte _) v)
    (((r.head + r.len) % r.capacityInSlots) * 3) = _
  unfold slotToByte
  rw [tailSlot_mod hcap0]
  apply readSlot_writeSlot_self _ hv
  have := Nat.mod_lt (r.head + r.len) hcap0
  omega

theorem toArray_pushTail {r : IndexRing} (hg : Good r)
    (hlt : r.len < r.capacityInSlots) {v : Nat} (hv : v ≤ 0xFFFFFF) :
    toArray (pushTail r v) = toArray r ++ [v] := by
  unfold toArray
  rw [pushTail_len, List.range_succ, List.map_append]
  congr 1
  · apply List.map_congr_left
    intro i hi
    exact get_pushTail_old hg hlt v (List.mem_range.mp hi)
  · simp [get_pushTail_new hg hlt hv]

theorem good_pushTail {r : IndexRing} (hg : Good r)
    (hlt : r.len < r.capacityInSlots) (v : Nat) : Good (pushTail r v) := by
  obtain ⟨hlen, hb, hlc⟩ := hg
  refine ⟨?_, ?_, ?_⟩
  · show (writeSlot r.data _ v).length = (pushTail r v).capacityInSlots * 3
    rw [writeSlot_length, pushTail_capacity]
    exact hlen
  · intro b hbm
    rcases mem_writeSlot hbm with hbm | hbm
    · exact hb b hbm
    · exact hbm
  · rw [pushTail_len, pushTail_capacity]
    omega

theorem push_eq_of_full {r : IndexRing} (h : r.len = r.capacityInSlots)
    (v : Nat) : r.push v = pushTail r.grow v := by
  simp [push, h]

theorem push_eq_of_not_full {r : IndexRing} (h : r.len ≠ r.capacityInSlots)
    (v : Nat) : r.push v = pushTail r v := by
  simp [push, h]

theorem toArray_push {r : IndexRing} (hg : Good r) {v : Nat}
    (hv : v ≤ 0xFFFFFF) : toArray (r.push v) = toArray r ++ [v] := by
  by_cases hfull : r.len = r.capacityInSlots
  · rw [push_eq_of_full hfull,
      toArray_pushTail (good_grow hg) (by rw [grow_len]; exact lt_grow_capacity hg.2.2) hv,
      toArray_grow hg]
  · rw [push_eq_of_not_full hfull]
    have hle := hg.2.2
    exact toArray_pushTail hg (by omega) hv

theorem good_push {r : IndexRing} (hg : Good r) (v : Nat) :
    Good (r.push v) := by
  by_cases hfull : r.len = r.capacityInSlots
  · rw [push_eq_of_full hfull]
    exact good_pushTail (good_grow hg)
      (by rw [grow_len]; exact lt_grow_capacity hg.2.2) v
  · rw [push_eq_of_not_full hfull]
    have := hg.2.2
    exact good_pushTail hg (by omega) v

theorem pop_eq_shift (r : IndexRing) : r.pop = r.shift := rfl

theorem shift_of_empty {r : IndexRing} (h : r.len = 0) :
    r.shift = (none, r) := by
  simp [shift, h]

theorem shift_fst (r : IndexRing) :
    (r.shift).1 = (toArray r).head? := by
  by_cases h0 : r.len = 0
  · rw [shift_of_empty h0]
    simp [toArray, h0]
  · obtain ⟨n, hn⟩ : ∃ n, r.len = n + 1 := ⟨r.len - 1, by omega⟩
    rw [shift, if_neg h0]
    unfold toArray
    rw [hn, List.range_succ_eq_map]
    show some (readSlot r.data (r.slotToByte r.head)) = some (r.get 0)
    unfold slotToByte get
    rw [Nat.add_zero]

theorem get_shift_snd {r : IndexRing} (h0 : r.len ≠ 0) (i : Nat) :
    ((r.shift).2).get i = r.get (i + 1) := by
  rw [shift, if_neg h0]
  show readSlot r.data
    ((((r.head + 1) % r.capacityInSlots + i) % r.capacityInSlots) * 3) = _
  rw [Nat.mod_add_mod]
  have harg : r.head + 1 + i = r.head + (i + 1) := by omega
  rw [harg]
  rfl

theorem shift_snd_toArray (r : IndexRing) :
    toArray (r.shift).2 = (toArray r).tail := by
  by_cases h0 : r.len = 0
  · rw [shift_of_empty h0]
    simp [toArray, h0]
  · obtain ⟨n, hn⟩ : ∃ n, r.len = n + 1 := ⟨r.len - 1, by omega⟩
    have hlen2 : ((r.shift).2).len = n := by
      rw [shift, if_neg h0]
      simp [hn]
    unfold toArray
    rw [hlen2]
    conv_rhs => rw [hn, List.range_succ_eq_map]
    rw [List.map_cons, List.tail_cons, List.map_map]
    apply List.map_congr_left
    intro i hi
    rw [get_shift_snd h0]
    simp [Nat.succ_eq_add_one]

theorem good_shift_snd {r : IndexRing} (hg : Good r) : Good (r.shift).2 := by
  by_cases h0 : r.len = 0
  · rw [shift_of_empty h0]
    exact hg
  · obtain ⟨hlen, hb, hlc⟩ := hg
    rw [shift, if_neg h0]
    refine ⟨hlen, hb, ?_⟩
    show r.len - 1 ≤ r.data.length / 3
    have hc : r.len ≤ r.data.length / 3 := hlc
    omega

theorem shift_fst_le {r : IndexRing} (hg : Good r) {v : Nat}
    (h : (r.shift).1 = some v) : v ≤ 0xFFFFFF := by
  by_cases h0 : r.len = 0
  · rw [shift_of_empty h0] at h
    exact absurd h (by simp)
  · rw [shift, if_neg h0] at h
    have hv : readSlot r.data (r.slotToByte r.head) = v := by
      simpa using h
    rw [← hv]
    exact readSlot_le hg.2.1 _

end IndexRing

/-! ### The FIFO refinement: every reachable ring agrees with the queue
model -/

open IndexRing in
theorem applyOps_good_model (ops : List RingOp) :
    ∀ (r : IndexRing) (l : List Nat), ops.all opOK = true → Good r →
      toArray r = l →
      Good (applyOps r ops) ∧ toArray (applyOps r ops) = modelOps l ops := by
  induction ops with
  | nil =>
    intro r l _ hg ht
    exact ⟨hg, ht⟩
  | cons op ops ih =>
    intro r l hall hg ht
    rw [List.all_cons, Bool.and_eq_true] at hall
    obtain ⟨hop, hall⟩ := hall
    show Good (applyOps (applyOp r op) ops) ∧
      toArray (applyOps (applyOp r op) ops) = modelOps (modelOp l op) ops
    cases op with
    | push v =>
      have hv : v ≤ 0xFFFFFF := by simpa [opOK] using hop
      exact ih (r.push v) (l ++ [v]) hall (good_push hg v)
        (by rw [toArray_push hg hv, ht])
    | pop =>
      refine ih r.pop.2 l.tail hall ?_ ?_
      · rw [pop_eq_shift]
        exact good_shift_snd hg
      · rw [pop_eq_shift, shift_snd_toArray, ht]
    | shift =>
      exact ih r.shift.2 l.tail hall (good_shift_snd hg)
        (by rw [shift_snd_toArray, ht])
    | compact =>
      exact ih r.compact l hall (good_compact hg)
        (by rw [toArray_compact hg, ht])

/-! ### HoleArray lemmas -/

namespace HoleArray

variable {α β : Type}

theorem pushAll_data (h : HoleArray α) (vs : List α) :
    (pushAll h vs).data = h.data ++ vs.map some := by
  induction vs generalizing h with
  | nil => simp [pushAll]
  | cons v vs ih =>
    show (pushAll (h.push v) vs).data = _
    rw [ih]
    simp [push]

theorem markHoles_length (h : HoleArray α) (hs : List Nat) :
    (markHoles h hs).data.length = h.data.length := by
  induction hs generalizing h with
  | nil => rfl
  | cons i hs ih =>
    show (markHoles (h.markHole i) hs).data.length = _
    rw [ih]
    simp [markHole]

theorem markHoles_getElem? (hs : List Nat) (h : HoleArray α) (k : Nat) :
    (markHoles h hs).data[k]? =
      if k ∈ hs ∧ k < h.data.length then some none else h.data[k]? := by
  induction hs generalizing h with
  | nil => simp [markHoles]
  | cons i hs ih =>
    show (markHoles (h.markHole i) hs).data[k]? = _
    rw [ih]
    have hlen : (h.markHole i).data.length = h.data.length := by
      simp [markHole]
    by_cases hmem : k ∈ hs ∧ k < h.data.length
    · rw [if_pos (by rw [hlen]; exact hmem),
        if_pos ⟨List.mem_cons_of_mem i hmem.1, hmem.2⟩]
    · rw [if_neg (by rw [hlen]; exact hmem)]
      show (h.data.set i none)[k]? = _
      rw [List.getElem?_set]
      by_cases hik : i = k
      · subst hik
        by_cases hrange : i < h.data.length
        · rw [if_pos rfl, if_pos hrange,
            if_pos ⟨List.mem_cons_self i hs, hrange⟩]
        · rw [if_pos rfl, if_neg hrange,
            if_neg (fun hc => hrange hc.2),
            List.getElem?_eq_none (by omega)]
      · have hnc : ¬(k ∈ i :: hs ∧ k < h.data.length) := by
          intro hc
          rcases List.mem_cons.mp hc.1 with he | hm
          · exact hik he.symm
          · exact hmem ⟨hm, hc.2⟩
        rw [if_neg hik, if_neg hnc]

theorem marked_data_eq (vs : List α) (hs : List Nat) :
    (markHoles (pushAll new vs) hs).data
      = vs.enum.map (fun p => if p.1 ∈ hs then none else some p.2) := by
  have hdata : (pushAll (new : HoleArray α) vs).data = vs.map some := by
    rw [pushAll_data]
    simp [new]
  apply List.ext_getElem?
  intro k
  rw [markHoles_getElem?, hdata, List.getElem?_map, List.getElem?_map,
    List.getElem?_enum]
  by_cases hk : k < vs.length
  · rw [List.getElem?_eq_getElem hk]
    by_cases hm : k ∈ hs
    · rw [if_pos ⟨hm, by simpa using hk⟩]
      simp [hm]
    · rw [if_neg (fun hc => hm hc.1)]
      simp [hm]
  · rw [if_neg (fun hc => hk (by simpa using hc.2)),
      List.getElem?_eq_none (by simpa using Nat.le_of_not_lt hk)]
    rfl

theorem filterMap_ite_eq_filter_map (p : α → Prop) [DecidablePred p]
    (g : α → β) (l : List α) :
    l.filterMap (fun a => if p a then none else some (g a))
      = (l.filter (fun a => decide (¬ p a))).map g := by
  induction l with
  | nil => rfl
  | cons a l ih =>
    by_cases hp : p a
    · simp [hp, ih]
    · simp [hp, ih]

theorem filterMap_id_filter_isSome (l : List (Option α)) :
    (l.filter (fun x => x.isSome)).filterMap id = l.filterMap id := by
  induction l with
  | nil => rfl
  | cons a l ih =>
    cases a with
    | none => simpa using ih
    | some v => simpa using ih

theorem iterValid_compact (h : HoleArray α) :
    (h.compact).iterValid = h.iterValid :=
  filterMap_id_filter_isSome h.data

theorem iterValid_marked (vs : List α) (hs : List Nat) :
    (markHoles (pushAll new vs) hs).iterValid
      = (vs.enum.filter (fun p => decide (p.1 ∉ hs))).map Prod.snd := by
  show (markHoles (pushAll new vs) hs).data.filterMap id = _
  rw [marked_data_eq, List.filterMap_map]
  exact filterMap_ite_eq_filter_map (fun p => p.1 ∈ hs) Prod.snd vs.enum

end HoleArray

namespace IndexRing

theorem get_push_new {r : IndexRing} (hg : Good r) {v : Nat}
    (hv : v ≤ 0xFFFFFF) : (r.push v).get r.len = v := by
  by_cases hfull : r.len = r.capacityInSlots
  · rw [push_eq_of_full hfull]
    exact get_pushTail_new (good_grow hg)
      (by rw [grow_len]; exact lt_grow_capacity hg.2.2) hv
  · rw [push_eq_of_not_full hfull]
    have hle := hg.2.2
    exact get_pushTail_new hg (by omega) hv

end IndexRing

open IndexRing HoleArray

/-! ### The claims -/

/-- C1: starting from `new(initial_slots)`, after any interleaving of
pushes (values in `[0, 2^24-1]`), pops, shifts (and compacts), `toArray()`
returns exactly the values pushed so far and not yet removed, oldest
first — i.e. the ring refines the FIFO queue model. -/
theorem ring_toArray_fifo (slots : Nat) (ops : List RingOp)
    (h : ops.all opOK = true) :
    (applyOps (IndexRing.new slots) ops).toArray = modelOps [] ops :=
  (applyOps_good_model ops (IndexRing.new slots) [] h (good_new slots)
    (toArray_new slots)).2

/-- Witness for `ring_toArray_fifo`: the spec's concrete scenario. -/
theorem ring_toArray_fifo_witness :
    ([RingOp.push 1, RingOp.push 2, RingOp.push 3, RingOp.shift,
        RingOp.push 16777215].all opOK = true) ∧
      (applyOps (IndexRing.new 2) [RingOp.push 1, RingOp.push 2,
          RingOp.push 3, RingOp.shift, RingOp.push 16777215]).toArray
        = modelOps [] [RingOp.push 1, RingOp.push 2, RingOp.push 3,
            RingOp.shift, RingOp.push 16777215] :=
  ⟨by decide, ring_toArray_fifo 2 _ (by decide)⟩

/-- C2: a push into a full ring (`len = capacity`, capacity 0 included)
grows to exactly `max(capacity, 1) * 2` slots, rewrites the existing
logical elements in logical order into slots `0..len-1` (so `get` is
unchanged on them), resets `head` to 0, then appends: `toArray` afterwards
is the old contents with the new value appended. -/
theorem push_full_grows (r : IndexRing) (v : Nat) (hg : Good r)
    (hfull : r.len = r.capacityInSlots) (hv : v ≤ 0xFFFFFF) :
    (r.push v).capacityInSlots = max r.capacityInSlots 1 * 2 ∧
    r.grow.len = r.len ∧ r.grow.head = 0 ∧
    (∀ i, i < r.len → r.grow.get i = r.get i) ∧
    (r.push v).head = 0 ∧
    (r.push v).toArray = r.toArray ++ [v] := by
  refine ⟨?_, rfl, rfl, fun i hi => get_grow hg hi, ?_, toArray_push hg hv⟩
  · rw [push_eq_of_full hfull, pushTail_capacity, grow_capacity]
  · rw [push_eq_of_full hfull, pushTail_head, grow_head]

/-- Witness for `push_full_grows`: a full one-slot ring holding `7`. -/
theorem push_full_grows_witness :
    Good (IndexRing.mk [7, 0, 0] 0 1) ∧
    (IndexRing.mk [7, 0, 0] 0 1).len
      = (IndexRing.mk [7, 0, 0] 0 1).capacityInSlots ∧
    (9 : Nat) ≤ 0xFFFFFF ∧
    ((IndexRing.mk [7, 0, 0] 0 1).push 9).capacityInSlots
      = max (IndexRing.mk [7, 0, 0] 0 1).capacityInSlots 1 * 2 ∧
    ((IndexRing.mk [7, 0, 0] 0 1).push 9).head = 0 ∧
    ((IndexRing.mk [7, 0, 0] 0 1).push 9).toArray
      = (IndexRing.mk [7, 0, 0] 0 1).toArray ++ [9] := by
  have h := push_full_grows (IndexRing.mk [7, 0, 0] 0 1) 9 (by decide)
    (by decide) (by decide)
  exact ⟨by decide, by decide, by decide, h.1, h.2.2.2.2.1, h.2.2.2.2.2⟩

/-- C3: the 3-byte little-endian encode/decode round-trips every value in
`[0, 2^24-1]`, and consequently the element appended by `push(v)` reads
back as `v` via `get`. -/
theorem encode_decode_roundtrip (v : Nat) (hv : v ≤ 0xFFFFFF)
    (r : IndexRing) (hg : Good r) :
    decode3 (encByte v 0) (encByte v 1) (encByte v 2) = v ∧
    (r.push v).get r.len = v :=
  ⟨decode3_encByte v hv, get_push_new hg hv⟩

/-- Witness for `encode_decode_roundtrip` at `v = 0xABCDEF`. -/
theorem encode_decode_roundtrip_witness :
    (11259375 : Nat) ≤ 0xFFFFFF ∧ Good (IndexRing.new 2) ∧
    decode3 (encByte 11259375 0) (encByte 11259375 1) (encByte 11259375 2)
      = 11259375 ∧
    ((IndexRing.new 2).push 11259375).get (IndexRing.new 2).len = 11259375 := by
  have h := encode_decode_roundtrip 11259375 (by decide) (IndexRing.new 2)
    (by decide)
  exact ⟨by decide, by decide, h.1, h.2⟩

/-- C4: `compact()` keeps the logical contents, resets `head` to 0,
shrinks storage to exactly `len * 3` bytes, and is idempotent both
logically and physically (the double-compacted state is equal as a
structure to the once-compacted one). -/
theorem compact_contract (r : IndexRing) (hg : Good r) :
    r.compact.toArray = r.toArray ∧ r.compact.head = 0 ∧
    r.compact.data.length = r.len * 3 ∧
    r.compact.compact = r.compact :=
  ⟨toArray_compact hg, compact_head r, compact_data_length r, compact_idem hg⟩

/-- Witness for `compact_contract`: a wrapped two-slot ring with `head = 1`. -/
theorem compact_contract_witness :
    Good (IndexRing.mk [1, 0, 0, 2, 0, 0] 1 1) ∧
    (IndexRing.mk [1, 0, 0, 2, 0, 0] 1 1).compact.toArray
      = (IndexRing.mk [1, 0, 0, 2, 0, 0] 1 1).toArray ∧
    (IndexRing.mk [1, 0, 0, 2, 0, 0] 1 1).compact.head = 0 ∧
    (IndexRing.mk [1, 0, 0, 2, 0, 0] 1 1).compact.data.length
      = (IndexRing.mk [1, 0, 0, 2, 0, 0] 1 1).len * 3 ∧
    (IndexRing.mk [1, 0, 0, 2, 0, 0] 1 1).compact.compact
      = (IndexRing.mk [1, 0, 0, 2, 0, 0] 1 1).compact := by
  have h := compact_contract (IndexRing.mk [1, 0, 0, 2, 0, 0] 1 1) (by decide)
  exact ⟨by decide, h.1, h.2.1, h.2.2.1, h.2.2.2⟩

/-- C5: `pop()` and `shift()` are extensionally equal — on every state they
return the same optional value and the same successor state; on a
non-empty state that value is the oldest element (`get 0`, at slot `head`)
and the successor advances `head` by one modulo capacity and decrements
`len`. -/
theorem pop_shift_agree (r : IndexRing) :
    r.pop = r.shift ∧
    (r.len ≠ 0 →
      r.pop.1 = some (r.get 0) ∧
      r.pop.2 = IndexRing.mk r.data ((r.head + 1) % r.capacityInSlots)
        (r.len - 1)) := by
  refine ⟨rfl, fun h0 => ?_⟩
  rw [pop_eq_shift, shift, if_neg h0]
  refine ⟨?_, rfl⟩
  show some (readSlot r.data (r.slotToByte r.head)) = some (r.get 0)
  unfold slotToByte IndexRing.get
  rw [Nat.add_zero]

/-- Witness for `pop_shift_agree` on a concrete non-empty ring. -/
theorem pop_shift_agree_witness :
    (IndexRing.mk [5, 0, 0, 6, 0, 0] 0 2).pop
        = (IndexRing.mk [5, 0, 0, 6, 0, 0] 0 2).shift ∧
    (IndexRing.mk [5, 0, 0, 6, 0, 0] 0 2).pop.1
        = some ((IndexRing.mk [5, 0, 0, 6, 0, 0] 0 2).get 0) := by
  have h := pop_shift_agree (IndexRing.mk [5, 0, 0, 6, 0, 0] 0 2)
  exact ⟨h.1, (h.2 (by decide)).1⟩

/-- C6: on every ring reachable from `new(initial_slots)` by valid public
operations, `0 ≤ len` and `len ≤ capacity_slots = storage.length / 3`. -/
theorem length_le_capacity (slots : Nat) (ops : List RingOp)
    (h : ops.all opOK = true) :
    0 ≤ (applyOps (IndexRing.new slots) ops).len ∧
    (applyOps (IndexRing.new slots) ops).len
      ≤ (applyOps (IndexRing.new slots) ops).capacityInSlots :=
  ⟨Nat.zero_le _,
   (applyOps_good_model ops (IndexRing.new slots) [] h (good_new slots)
     (toArray_new slots)).1.2.2⟩

/-- Witness for `length_le_capacity`. -/
theorem length_le_capacity_witness :
    ([RingOp.push 10, RingOp.push 20, RingOp.shift, RingOp.compact,
        RingOp.push 30].all opOK = true) ∧
    (applyOps (IndexRing.new 0) [RingOp.push 10, RingOp.push 20,
        RingOp.shift, RingOp.compact, RingOp.push 30]).len
      ≤ (applyOps (IndexRing.new 0) [RingOp.push 10, RingOp.push 20,
        RingOp.shift, RingOp.compact, RingOp.push 30]).capacityInSlots :=
  ⟨by decide, (length_le_capacity 0 _ (by decide)).2⟩

/-- C7: on an empty ring `pop()` and `shift()` return no value (`none`)
and leave the whole state — storage, head and length — unchanged. -/
theorem pop_shift_empty_noop (r : IndexRing) (h : r.len = 0) :
    r.pop = (none, r) ∧ r.shift = (none, r) :=
  ⟨(pop_eq_shift r).trans (shift_of_empty h), shift_of_empty h⟩

/-- Witness for `pop_shift_empty_noop` on a fresh ring. -/
theorem pop_shift_empty_noop_witness :
    (IndexRing.new 3).len = 0 ∧
    (IndexRing.new 3).pop = (none, IndexRing.new 3) ∧
    (IndexRing.new 3).shift = (none, IndexRing.new 3) :=
  ⟨rfl, pop_shift_empty_noop (IndexRing.new 3) rfl⟩

/-- C8: after `N` pushes of `v_0..v_{N-1}` and `mark_hole` at a list of
indices `H` (any order, repeats allowed), `iter_valid()` yields exactly
the `v_i` with `i ∉ H` in increasing order of `i`, and yields the same
sequence again after a subsequent `compact()`. -/
theorem iterValid_after_holes (α : Type) (vs : List α) (hs : List Nat) :
    (markHoles (pushAll HoleArray.new vs) hs).iterValid
      = (vs.enum.filter (fun p => decide (p.1 ∉ hs))).map Prod.snd ∧
    (markHoles (pushAll HoleArray.new vs) hs).compact.iterValid
      = (vs.enum.filter (fun p => decide (p.1 ∉ hs))).map Prod.snd :=
  ⟨iterValid_marked vs hs,
   (iterValid_compact _).trans (iterValid_marked vs hs)⟩

/-- C9: `mark_hole` at an index at or beyond the current number of slots
leaves the structure entirely unchanged and signals no error. -/
theorem markHole_out_of_range (α : Type) (h : HoleArray α) (index : Nat)
    (hidx : h.data.length ≤ index) : h.markHole index = h := by
  unfold markHole
  rw [List.set_eq_of_length_le hidx]

/-- Witness for `markHole_out_of_range`. -/
theorem markHole_out_of_range_witness :
    (HoleArray.mk [some 1, none] : HoleArray Nat).data.length ≤ 5 ∧
    (HoleArray.mk [some 1, none] : HoleArray Nat).markHole 5
      = HoleArray.mk [some 1, none] :=
  ⟨by decide, markHole_out_of_range Nat (HoleArray.mk [some 1, none]) 5
    (by decide)⟩

/-- C10: on every reachable ring, every value produced by `get`,
`toArray`, `shift` or `pop` lies in `[0, 2^24-1]`, because each is decoded
from exactly 3 bytes. -/
theorem returned_values_24bit (slots : Nat) (ops : List RingOp)
    (h : ops.all opOK = true) :
    (∀ i, (applyOps (IndexRing.new slots) ops).get i ≤ 0xFFFFFF) ∧
    (∀ v ∈ (applyOps (IndexRing.new slots) ops).toArray, v ≤ 0xFFFFFF) ∧
    (∀ v, (applyOps (IndexRing.new slots) ops).shift.1 = some v
      → v ≤ 0xFFFFFF) ∧
    (∀ v, (applyOps (IndexRing.new slots) ops).pop.1 = some v
      → v ≤ 0xFFFFFF) := by
  have hgood := (applyOps_good_model ops (IndexRing.new slots) [] h
    (good_new slots) (toArray_new slots)).1
  refine ⟨fun i => get_le hgood.2.1 i, ?_, fun v hv => shift_fst_le hgood hv,
    fun v hv => shift_fst_le hgood (by rw [← pop_eq_shift]; exact hv)⟩
  intro v hv
  obtain ⟨i, _, hi⟩ := List.mem_map.mp hv
  rw [← hi]
  exact get_le hgood.2.1 i

/-- Witness for `returned_values_24bit`. -/
theorem returned_values_24bit_witness :
    ([RingOp.push 300, RingOp.push 70000].all opOK = true) ∧
    (applyOps (IndexRing.new 0) [RingOp.push 300, RingOp.push 70000]).get 0
      ≤ 0xFFFFFF :=
  ⟨by decide,
   (returned_values_24bit 0 [RingOp.push 300, RingOp.push 70000]
     (by decide)).1 0⟩

end RefinedSets
